import Mathlib

/-!
Verification of the configuration-driven web backend (`upload_server.js`,
canonical CommonJS copy; the `.mjs` copy shares the same structure).

The development shallowly embeds the parts of the server that the claims
touch: JS string truthiness, Node `path.posix` join/resolve/extname at the
level of `'/'`-separated segments (all directories handled by the server are
absolute, rooted at `__dirname` or an absolute configured directory), the
configuration data model, startup validation, policy resolution, the upload
and delete endpoints over an explicit file-system state (a set of present
path names; `multer.diskStorage` stages the incoming file at
`UPLOAD_DIR/<originalname>`, overwriting by name, before the handler runs),
the browse endpoint's sanitization and containment check, the MQTT message
handler with decoders modelled as an explicit environment of fallible
functions, and the action endpoint with broker calls modelled as explicit
synchronous outcomes (a thrown failure is caught by the handler's
`try`/`catch`, matching the server's error propagation design).
-/

namespace UpServer

/-- JS truthiness of an optional string field: `undefined` and `""` are falsy. -/
def truthy : Option String → Bool
  | some s => !(s == "")
  | none => false

/-- The `x || null` normalization the handlers apply to optional string inputs. -/
def truthyOpt : Option String → Option String
  | some s => if s == "" then none else some s
  | none => none

/-- Splits a character list at `'/'`, as JS `split('/')` and the segment scan
inside Node's `path.posix` normalization do; `""` splits to `[""]`. -/
def splitSlash : List Char → List (List Char)
  | [] => [[]]
  | c :: rest =>
    if c = '/' then [] :: splitSlash rest
    else
      match splitSlash rest with
      | [] => [[c]]
      | s :: ss => (c :: s) :: ss

theorem splitSlash_ne_nil (l : List Char) : splitSlash l ≠ [] := by
  cases l with
  | nil => simp [splitSlash]
  | cons c rest =>
    by_cases h : c = '/'
    · simp [splitSlash, h]
    · simp only [splitSlash, if_neg h]
      cases splitSlash rest <;> simp

theorem splitSlash_append (a b : List Char) :
    splitSlash (a ++ '/' :: b) = splitSlash a ++ splitSlash b := by
  induction a with
  | nil => simp [splitSlash]
  | cons c a ih =>
    by_cases h : c = '/'
    · simp only [List.cons_append, splitSlash, if_pos h, List.append_eq, ih]
    · obtain ⟨s, ss, hss⟩ : ∃ s ss, splitSlash a = s :: ss := by
        cases hsa : splitSlash a with
        | nil => exact absurd hsa (splitSlash_ne_nil a)
        | cons s ss => exact ⟨s, ss, rfl⟩
      simp only [List.cons_append, splitSlash, if_neg h, List.append_eq, ih, hss,
        List.cons_append]

theorem splitSlash_head (l : List Char) :
    ∃ ss, splitSlash l = (l.takeWhile (fun c => c != '/')) :: ss := by
  induction l with
  | nil => exact ⟨[], rfl⟩
  | cons c rest ih =>
    by_cases h : c = '/'
    · refine ⟨splitSlash rest, ?_⟩
      simp [splitSlash, h, List.takeWhile_cons]
    · obtain ⟨ss, hss⟩ := ih
      refine ⟨ss, ?_⟩
      simp only [splitSlash, if_neg h, hss, List.takeWhile_cons]
      simp [h]

/-- Whether a character list contains two adjacent dots. -/
def hasDoubleDot : List Char → Bool
  | [] => false
  | [_] => false
  | a :: b :: rest => (a == '.' && b == '.') || hasDoubleDot (b :: rest)

theorem hasDoubleDot_tail {c : Char} {rest : List Char}
    (h : hasDoubleDot (c :: rest) = false) : hasDoubleDot rest = false := by
  cases rest with
  | nil => rfl
  | cons b r =>
    simp only [hasDoubleDot, Bool.or_eq_false_iff] at h
    exact h.2

theorem length_dropWhile_le (p : Char → Bool) (l : List Char) :
    (l.dropWhile p).length ≤ l.length := by
  induction l with
  | nil => simp [List.dropWhile]
  | cons a l ih =>
    rw [List.dropWhile_cons]
    by_cases h : p a
    · rw [if_pos h]
      simp only [List.length_cons]
      omega
    · rw [if_neg h]

/-- Fuel-indexed worker for the dot-run stripping: at a dot whose successor
is also a dot, the whole run is removed; a lone dot is kept. The fuel only
makes the length-decreasing recursion structural and is never exhausted
when it starts at the list's length. -/
def stripDotRunsAux : Nat → List Char → List Char
  | 0, _ => []
  | _ + 1, [] => []
  | fuel + 1, c :: rest =>
    if c = '.' then
      if rest.takeWhile (fun x => x == '.') = [] then
        '.' :: stripDotRunsAux fuel rest
      else
        stripDotRunsAux fuel (rest.dropWhile (fun x => x == '.'))
    else
      c :: stripDotRunsAux fuel rest

/-- The global regex replacement of every maximal run of two or more dots
by the empty string, as the browse handler's
`relPath.replace` with pattern "dot, at least twice, global" performs. -/
def stripDotRuns (l : List Char) : List Char := stripDotRunsAux l.length l

theorem stripDotRunsAux_nil (fuel : Nat) : stripDotRunsAux fuel [] = [] := by
  cases fuel <;> rfl

theorem stripDotRunsAux_no_doubleDot (fuel : Nat) (l : List Char)
    (h : l.length ≤ fuel) :
    hasDoubleDot (stripDotRunsAux fuel l) = false := by
  induction fuel generalizing l with
  | zero =>
    rw [show stripDotRunsAux 0 l = [] from rfl]
    rfl
  | succ f ih =>
    cases l with
    | nil => rfl
    | cons c rest =>
      have hrest : rest.length ≤ f := by
        simp only [List.length_cons] at h
        omega
      by_cases hc : c = '.'
      · subst hc
        by_cases htake : rest.takeWhile (fun x => x == '.') = []
        · rw [show stripDotRunsAux (f + 1) ('.' :: rest) =
              '.' :: stripDotRunsAux f rest by simp [stripDotRunsAux, htake]]
          cases rest with
          | nil =>
            rw [stripDotRunsAux_nil]
            rfl
          | cons d r =>
            have hd : ¬ d = '.' := by
              intro hdd
              simp [List.takeWhile_cons, hdd] at htake
            obtain ⟨f', rfl⟩ : ∃ f', f = f' + 1 := by
              cases f with
              | zero => simp at hrest
              | succ k => exact ⟨k, rfl⟩
            rw [show stripDotRunsAux (f' + 1) (d :: r) =
                d :: stripDotRunsAux f' r by simp [stripDotRunsAux, hd]]
            have ihr := ih (d :: r) hrest
            rw [show stripDotRunsAux (f' + 1) (d :: r) =
                d :: stripDotRunsAux f' r by simp [stripDotRunsAux, hd]] at ihr
            simp only [hasDoubleDot, Bool.or_eq_false_iff]
            refine ⟨?_, ihr⟩
            simp [hd]
        · rw [show stripDotRunsAux (f + 1) ('.' :: rest) =
              stripDotRunsAux f (rest.dropWhile (fun x => x == '.')) by
                simp [stripDotRunsAux, htake]]
          exact ih _ (le_trans (length_dropWhile_le _ _) hrest)
      · rw [show stripDotRunsAux (f + 1) (c :: rest) =
            c :: stripDotRunsAux f rest by simp [stripDotRunsAux, hc]]
        have ihr := ih rest hrest
        cases hsr : stripDotRunsAux f rest with
        | nil => rfl
        | cons x xs =>
          rw [hsr] at ihr
          simp only [hasDoubleDot, Bool.or_eq_false_iff]
          refine ⟨?_, ihr⟩
          simp [hc]

theorem stripDotRuns_no_doubleDot (l : List Char) :
    hasDoubleDot (stripDotRuns l) = false :=
  stripDotRunsAux_no_doubleDot l.length l (le_refl _)

theorem splitSlash_no_dotdot (l : List Char) (h : hasDoubleDot l = false) :
    ∀ s ∈ splitSlash l, s ≠ ['.', '.'] := by
  induction l with
  | nil =>
    intro s hs
    simp only [splitSlash, List.mem_singleton] at hs
    subst hs
    simp
  | cons c rest ih =>
    intro s hs
    by_cases hc : c = '/'
    · simp only [splitSlash, if_pos hc, List.mem_cons] at hs
      rcases hs with hs | hs
      · subst hs; simp
      · exact ih (hasDoubleDot_tail h) s hs
    · obtain ⟨ss, hss⟩ := splitSlash_head rest
      simp only [splitSlash, if_neg hc, hss, List.mem_cons] at hs
      rcases hs with hs | hs
      · -- head segment is c :: takeWhile of rest
        intro habs
        rw [hs] at habs
        have hc' : c = '.' := by
          have := congrArg (fun l => l.head?) habs
          simpa using this
        have hrest : rest.head? = some '.' := by
          have htail : rest.takeWhile (fun c => c != '/') = ['.'] := by
            have := congrArg List.tail habs
            simpa using this
          cases rest with
          | nil => simp [List.takeWhile_nil] at htail
          | cons d r =>
            rw [List.takeWhile_cons] at htail
            by_cases hd : (d != '/') = true
            · rw [if_pos hd] at htail
              have : d = '.' := by
                have := congrArg (fun l => l.head?) htail
                simpa using this
              simp [this]
            · rw [if_neg hd] at htail
              simp at htail
        cases rest with
        | nil => simp at hrest
        | cons d r =>
          simp only [List.head?_cons, Option.some.injEq] at hrest
          rw [hc', hrest] at h
          simp [hasDoubleDot] at h
      · have hmem : s ∈ splitSlash rest := by
          rw [hss]
          exact List.mem_cons_of_mem _ hs
        exact ih (hasDoubleDot_tail h) s hmem

/-- One step of Node's `path.posix` segment normalization for an absolute
path: empty and `"."` segments are dropped, `".."` pops the last stacked
segment (at the root it is discarded, since `allowAboveRoot` is false for
absolute paths), anything else is pushed. -/
def normStep (stack : List (List Char)) (seg : List Char) : List (List Char) :=
  if seg = [] then stack
  else if seg = ['.'] then stack
  else if seg = ['.', '.'] then stack.dropLast
  else stack ++ [seg]

/-- A segment survives normalization when it is neither empty nor `"."`. -/
def keepSeg (s : List Char) : Bool := !(s == [] || s == ['.'])

/-- The normalized segment stack of an absolute path: Node's
`path.resolve`/`path.normalize` on an absolute path, and the normalization
`path.join` applies to its concatenated arguments. -/
def normSegs (l : List Char) : List (List Char) :=
  (splitSlash l).foldl normStep []

theorem foldl_normStep_no_dotdot (segs : List (List Char))
    (h : ∀ s ∈ segs, s ≠ ['.', '.']) (init : List (List Char)) :
    segs.foldl normStep init = init ++ segs.filter keepSeg := by
  induction segs generalizing init with
  | nil => simp
  | cons s rest ih =>
    have hs : s ≠ ['.', '.'] := h s (by simp)
    have hrest : ∀ t ∈ rest, t ≠ ['.', '.'] := fun t ht => h t (List.mem_cons_of_mem _ ht)
    by_cases h1 : s = []
    · subst h1
      simp only [List.foldl_cons, normStep, if_pos rfl, List.filter_cons]
      rw [ih hrest]
      simp [keepSeg]
    · by_cases h2 : s = ['.']
      · subst h2
        simp only [List.foldl_cons, normStep, if_neg h1, if_pos rfl, List.filter_cons]
        rw [ih hrest]
        simp [keepSeg]
      · simp only [List.foldl_cons, normStep, if_neg h1, if_neg h2, if_neg hs,
          List.filter_cons]
        rw [ih hrest]
        have hkeep : keepSeg s = true := by
          simp [keepSeg, h1, h2]
        rw [hkeep]
        simp [List.append_assoc]

theorem normSegs_append_of_no_doubleDot (root rel : List Char)
    (h : hasDoubleDot rel = false) :
    normSegs (root ++ '/' :: rel) = normSegs root ++ (splitSlash rel).filter keepSeg := by
  unfold normSegs
  rw [splitSlash_append, List.foldl_append,
    foldl_normStep_no_dotdot _ (splitSlash_no_dotdot rel h)]

/-- Rebuilds the absolute path string of a normalized segment stack, as
Node does: a leading `'/'` followed by the segments joined with `'/'`. -/
def segsToPath (segs : List (List Char)) : List Char :=
  '/' :: List.intercalate ['/'] segs

/-- The backslash-to-slash replacement the browse handler performs first. -/
def replaceBackslash : List Char → List Char
  | [] => []
  | c :: rest => (if c = '\\' then '/' else c) :: replaceBackslash rest

/-- The browse handler's sanitization of the untrusted `path` query value:
backslashes become slashes, then every run of two or more dots is removed. -/
def sanitizeBrowsePath (q : String) : List Char :=
  stripDotRuns (replaceBackslash q.data)

/-- The path-handling core of `app.get` on `/api/browse`: sanitize the query,
join it under the download root, canonicalize both, and answer the listing
(the directory's normalized segments, `some`) only when the canonical string
of the target starts with the canonical string of the root; otherwise the
generic access-denied error (`none`). -/
def browseJs (rootDir q : String) : Option (List (List Char)) :=
  let relPath := sanitizeBrowsePath q
  let absSegs := normSegs (rootDir.data ++ '/' :: relPath)
  let rootSegs := normSegs rootDir.data
  if (segsToPath rootSegs).isPrefixOf (segsToPath absSegs) then some absSegs else none

/-- **C1.** For every browse request, whatever the untrusted `path` query
string contains, when the handler answers with a directory listing at all,
the listed directory's canonical segments extend the canonical segments of
the configured root: only descendants of the root (the root itself included)
are ever listed, and every other outcome is the access-denied error. -/
theorem browse_containment (rootDir q : String) (d : List (List Char))
    (h : browseJs rootDir q = some d) :
    normSegs rootDir.data <+: d := by
  simp only [browseJs] at h
  split at h
  · have hd : normSegs (rootDir.data ++ '/' :: sanitizeBrowsePath q) = d := by
      simpa using h
    rw [← hd, sanitizeBrowsePath,
      normSegs_append_of_no_doubleDot _ _ (stripDotRuns_no_doubleDot (replaceBackslash q.data))]
    exact List.prefix_append _ _
  · simp at h

/-- Concrete instance of the browse containment theorem: the classic
parent-traversal query `path=../../etc` against the root `/data/files`
is sanitized to `//etc` and resolves to `/data/files/etc`, a descendant
of the root. -/
theorem browse_containment_witness :
    browseJs "/data/files" "../../etc" =
      some [['d', 'a', 't', 'a'], ['f', 'i', 'l', 'e', 's'], ['e', 't', 'c']]
    ∧ normSegs "/data/files".data <+:
      [['d', 'a', 't', 'a'], ['f', 'i', 'l', 'e', 's'], ['e', 't', 'c']] :=
  ⟨by decide, browse_containment "/data/files" "../../etc" _ (by decide)⟩

/-- One configured member of a tab. The JS objects are duck-typed with a
`type` tag, so each variant carries its fields as optional values, present
or absent exactly as they may be in `config.json`. -/
inductive Member where
  | sensor (topic : Option String) (unit : Option String)
  | button (button_name : Option String) (publish_topic : Option String)
  | upload (button_name : Option String) (upload_directory : Option String)
      (allowed_extensions : Option (List String)) (max_file_size : Option Nat)
  | download (button_name : Option String) (root_directory : Option String)
      (allowed_extensions : Option (List String))
  deriving DecidableEq

/-- A named grouping of members; organizational only. -/
structure Tab where
  id : String
  members : List Member
  deriving DecidableEq

/-- The parsed configuration: broker endpoint plus ordered tabs. -/
structure Config where
  brokerHost : String
  brokerPort : Nat
  tabs : List Tab
  deriving DecidableEq

def Member.isUpload : Member → Bool
  | .upload .. => true
  | _ => false

def Member.isDownload : Member → Bool
  | .download .. => true
  | _ => false

def Member.isButtonType : Member → Bool
  | .button .. => true
  | _ => false

/-- Whether the member's `type` is one of button, upload, download. -/
def Member.isBUD : Member → Bool
  | .button .. => true
  | .upload .. => true
  | .download .. => true
  | _ => false

def Member.buttonName : Member → Option String
  | .button bn _ => bn
  | .upload bn _ _ _ => bn
  | .download bn _ _ => bn
  | .sensor _ _ => none

def Member.allowedExtensions : Member → Option (List String)
  | .upload _ _ e _ => e
  | .download _ _ e => e
  | _ => none

def Member.uploadDirectory : Member → Option String
  | .upload _ d _ _ => d
  | _ => none

def Member.rootDirectory : Member → Option String
  | .download _ d _ => d
  | _ => none

def Member.maxFileSize : Member → Option Nat
  | .upload _ _ _ m => m
  | _ => none

def Member.publishTopic : Member → Option String
  | .button _ t => t
  | _ => none

def Member.sensorTopic : Member → Option String
  | .sensor t _ => t
  | _ => none

def Member.sensorUnit : Member → Option String
  | .sensor _ u => u
  | _ => none

/-- All members of all tabs in traversal order. -/
def flatMembers (cfg : Config) : List Member := (cfg.tabs.map Tab.members).flatten

/-- The inner `for (const member of tab.members)` loop of the config lookup
helpers: first member satisfying the predicate. -/
def findMemberInList (p : Member → Bool) : List Member → Option Member
  | [] => none
  | m :: rest => if p m then some m else findMemberInList p rest

/-- The nested `for (const tab of config.tabs) for (const member ...)` loop
shared by `getUploadConfig`, `getDownloadConfig`, `getUnitForTopic` and the
action handler's button search. -/
def findMemberTabs (p : Member → Bool) : List Tab → Option Member
  | [] => none
  | t :: ts =>
    match findMemberInList p t.members with
    | some m => some m
    | none => findMemberTabs p ts

/-- `getUploadConfig(buttonName)`: the first upload member satisfying
`!buttonName || member.button_name === buttonName`. -/
def getUploadConfig (cfg : Config) (buttonName : Option String) : Option Member :=
  findMemberTabs
    (fun m => m.isUpload && (!(truthy buttonName) || m.buttonName == buttonName))
    cfg.tabs

/-- `getDownloadConfig(buttonName)`, identical shape for download members. -/
def getDownloadConfig (cfg : Config) (buttonName : Option String) : Option Member :=
  findMemberTabs
    (fun m => m.isDownload && (!(truthy buttonName) || m.buttonName == buttonName))
    cfg.tabs

/-- The policy resolution `getUploadConfig(buttonName) || getUploadConfig()`
that `/api/upload` performs after the `req.body.button_name || null`
normalization. -/
def resolveUpload (cfg : Config) (buttonName : Option String) : Option Member :=
  match getUploadConfig cfg (truthyOpt buttonName) with
  | some m => some m
  | none => getUploadConfig cfg none

/-- The distinct errors `validateConfig` can throw. -/
inductive ConfigError where
  | duplicateButtonName (name : String)
  | uploadMissingDirectory (button : Option String)
  | uploadMissingExtensions (button : Option String)
  | downloadMissingDirectory (button : Option String)
  | downloadMissingExtensions (button : Option String)
  | buttonMissingPublishTopic (button : Option String)
  deriving DecidableEq

/-- How a JS template literal renders the possibly-absent `button_name`. -/
def jsStr : Option String → String
  | some s => s
  | none => "undefined"

/-- The exact message text of each `validateConfig` error. -/
def ConfigError.message : ConfigError → String
  | .duplicateButtonName n => "Duplicate button_name found in config: " ++ n
  | .uploadMissingDirectory b => "Upload config missing upload_directory for button: " ++ jsStr b
  | .uploadMissingExtensions b => "Upload config missing allowed_extensions for button: " ++ jsStr b
  | .downloadMissingDirectory b => "Download config missing root_directory for button: " ++ jsStr b
  | .downloadMissingExtensions b => "Download config missing allowed_extensions for button: " ++ jsStr b
  | .buttonMissingPublishTopic b => "Button config missing publish_topic for button: " ++ jsStr b

/-- The name a member contributes to the duplicate check: only members whose
`type` is button/upload/download and whose `button_name` is truthy take part. -/
def dupName (m : Member) : Option String :=
  if m.isBUD && truthy m.buttonName then m.buttonName else none

/-- The per-type required-field checks of `validateConfig`, in source order. -/
def checkFields : Member → Except ConfigError Unit
  | .upload bn dir exts _ =>
    if !(truthy dir) then .error (.uploadMissingDirectory bn)
    else if exts.isNone then .error (.uploadMissingExtensions bn)
    else .ok ()
  | .download bn dir exts =>
    if !(truthy dir) then .error (.downloadMissingDirectory bn)
    else if exts.isNone then .error (.downloadMissingExtensions bn)
    else .ok ()
  | .button bn pt =>
    if !(truthy pt) then .error (.buttonMissingPublishTopic bn)
    else .ok ()
  | .sensor _ _ => .ok ()

/-- One iteration of the validation loop: duplicate check against the
`buttonNames` set first, then the field checks. -/
def checkMember (seen : List String) (m : Member) : Except ConfigError (List String) :=
  match dupName m with
  | some n =>
    if n ∈ seen then .error (.duplicateButtonName n)
    else
      match checkFields m with
      | .ok _ => .ok (n :: seen)
      | .error e => .error e
  | none =>
    match checkFields m with
    | .ok _ => .ok seen
    | .error e => .error e

def validateMembers (seen : List String) : List Member → Except ConfigError (List String)
  | [] => .ok seen
  | m :: rest =>
    match checkMember seen m with
    | .ok seen' => validateMembers seen' rest
    | .error e => .error e

def validateTabs (seen : List String) : List Tab → Except ConfigError (List String)
  | [] => .ok seen
  | t :: ts =>
    match validateMembers seen t.members with
    | .ok seen' => validateTabs seen' ts
    | .error e => .error e

/-- `validateConfig`: one pass over all tabs and members, throwing at the
first violation. It runs at module load, before the server begins listening;
any error is caught and answered with `process.exit(1)`, so a failing
configuration never serves. -/
def validateConfig (cfg : Config) : Except ConfigError Unit :=
  match validateTabs [] cfg.tabs with
  | .ok _ => .ok ()
  | .error e => .error e

/-- All names subject to the duplicate check, in traversal order. -/
def budNames (cfg : Config) : List String := (flatMembers cfg).filterMap dupName

/-- Whether a member passes its required-field checks. -/
def fieldsOk (m : Member) : Bool :=
  match checkFields m with
  | .ok _ => true
  | .error _ => false

theorem findMemberInList_eq_find? (p : Member → Bool) (l : List Member) :
    findMemberInList p l = l.find? p := by
  induction l with
  | nil => rfl
  | cons m rest ih =>
    by_cases h : p m <;> simp [findMemberInList, List.find?_cons, h, ih]

theorem find?_append_match {α} (l1 l2 : List α) (p : α → Bool) :
    (l1 ++ l2).find? p =
      match l1.find? p with
      | some x => some x
      | none => l2.find? p := by
  induction l1 with
  | nil => simp
  | cons a l ih =>
    by_cases h : p a <;> simp [List.find?_cons, h, ih]

theorem findMemberTabs_eq_find? (p : Member → Bool) (tabs : List Tab) :
    findMemberTabs p tabs = ((tabs.map Tab.members).flatten).find? p := by
  induction tabs with
  | nil => rfl
  | cons t ts ih =>
    cases h : t.members.find? p <;>
      simp [findMemberTabs, findMemberInList_eq_find?, List.flatten_cons,
        find?_append_match, h, ih]

theorem find?_and_eq_filter_find? {α} (l : List α) (p q : α → Bool) :
    l.find? (fun x => p x && q x) = (l.filter p).find? q := by
  induction l with
  | nil => rfl
  | cons a l ih =>
    by_cases hp : p a
    · rw [List.find?_cons, List.filter_cons, if_pos hp, List.find?_cons]
      by_cases hq : q a
      · simp only [hp, hq, Bool.true_and]
      · have h2 : q a = false := by simpa using hq
        simp only [hp, h2, Bool.true_and]
        exact ih
    · have h1 : p a = false := by simpa using hp
      rw [List.find?_cons, List.filter_cons, if_neg hp]
      simp only [h1, Bool.false_and]
      exact ih

theorem find?_const_true {α} (l : List α) :
    l.find? (fun _ => true) = l.head? := by
  cases l <;> simp [List.find?_cons]

/-- The upload members of the configuration, in traversal order. -/
def uploadMembers (cfg : Config) : List Member :=
  (flatMembers cfg).filter Member.isUpload

theorem truthyOpt_some_ne {o : Option String} {n : String}
    (h : truthyOpt o = some n) : ¬ n = "" := by
  cases o with
  | none => simp [truthyOpt] at h
  | some s =>
    simp only [truthyOpt] at h
    by_cases hs : (s == "") = true
    · rw [if_pos hs] at h
      cases h
    · rw [if_neg hs] at h
      injection h with h2
      subst h2
      simpa using hs

theorem getUploadConfig_none (cfg : Config) :
    getUploadConfig cfg none = (uploadMembers cfg).head? := by
  unfold getUploadConfig uploadMembers flatMembers
  rw [findMemberTabs_eq_find?]
  rw [show (fun m : Member =>
        m.isUpload && (!(truthy none) || m.buttonName == (none : Option String)))
      = (fun m : Member => m.isUpload && (fun _ : Member => true) m) from
      funext fun m => by simp [truthy]]
  rw [find?_and_eq_filter_find?, find?_const_true]

theorem getUploadConfig_some (cfg : Config) (n : String) (hn : ¬ n = "") :
    getUploadConfig cfg (some n) =
      (uploadMembers cfg).find? (fun m => m.buttonName == some n) := by
  unfold getUploadConfig uploadMembers flatMembers
  rw [findMemberTabs_eq_find?]
  rw [show (fun m : Member =>
        m.isUpload && (!(truthy (some n)) || m.buttonName == some n))
      = (fun m : Member => m.isUpload && (fun x : Member => x.buttonName == some n) m) from
      funext fun m => by
        have hbe : (n == "") = false := by simpa using hn
        simp [truthy, hbe]]
  rw [find?_and_eq_filter_find?]

/-- **C4 (amended).** How `/api/upload` actually resolves its policy,
characterized on the flattened member list: with a truthy `button_name` the
first upload member carrying exactly that name is chosen, and when none
matches the handler silently falls back to the first upload member in
traversal order; without a truthy `button_name` the first upload member is
chosen even when several exist. The request is rejected if and only if the
configuration has no upload member at all — ambiguity is never rejected. -/
theorem resolveUpload_characterization (cfg : Config) (buttonName : Option String) :
    (resolveUpload cfg buttonName =
      match truthyOpt buttonName with
      | some n =>
        (match (uploadMembers cfg).find? (fun m => m.buttonName == some n) with
         | some m => some m
         | none => (uploadMembers cfg).head?)
      | none => (uploadMembers cfg).head?)
    ∧ (resolveUpload cfg buttonName = none ↔ uploadMembers cfg = []) := by
  have hmain : resolveUpload cfg buttonName =
      match truthyOpt buttonName with
      | some n =>
        (match (uploadMembers cfg).find? (fun m => m.buttonName == some n) with
         | some m => some m
         | none => (uploadMembers cfg).head?)
      | none => (uploadMembers cfg).head? := by
    unfold resolveUpload
    cases hb : truthyOpt buttonName with
    | none =>
      simp only [getUploadConfig_none]
      cases hu : (uploadMembers cfg).head? with
      | none => simp [getUploadConfig_none]
      | some m => simp
    | some n =>
      rw [getUploadConfig_some cfg n (truthyOpt_some_ne hb)]
      cases hf : (uploadMembers cfg).find? (fun m => m.buttonName == some n) with
      | none => simp [hf, getUploadConfig_none]
      | some m => simp [hf]
  refine ⟨hmain, ?_⟩
  constructor
  · intro h
    rw [hmain] at h
    cases hb : truthyOpt buttonName with
    | none =>
      simp only [hb] at h
      exact List.head?_eq_none_iff.mp h
    | some n =>
      simp only [hb] at h
      cases hf : (uploadMembers cfg).find? (fun m => m.buttonName == some n) with
      | none =>
        simp only [hf] at h
        exact List.head?_eq_none_iff.mp h
      | some m =>
        simp only [hf] at h
        cases h
  · intro h
    rw [hmain, h]
    cases hb : truthyOpt buttonName <;> simp

/-- First and second upload policies for the ambiguity counterexample. -/
def upA : Member := .upload (some "logsA") (some "uploadsA") (some [".txt"]) none

def upB : Member := .upload (some "logsB") (some "uploadsB") (some [".txt"]) none

def cfgTwoUploads : Config := ⟨"localhost", 1883, [⟨"files", [upA, upB]⟩]⟩

/-- **C4 (counterexample).** With two upload policies configured and no
identifier supplied, the request is not rejected: the first policy is
silently chosen; likewise an identifier matching no policy silently falls
back to the first one. -/
theorem resolveUpload_ambiguity_not_rejected :
    (uploadMembers cfgTwoUploads).length = 2
    ∧ resolveUpload cfgTwoUploads none = some upA
    ∧ resolveUpload cfgTwoUploads (some "nonexistent") = some upA := by
  refine ⟨by decide, by decide, by decide⟩

theorem checkFields_ne_dup (m : Member) (n : String) :
    checkFields m ≠ .error (.duplicateButtonName n) := by
  intro h
  cases m with
  | sensor t u => simp [checkFields] at h
  | button bn pt =>
    simp only [checkFields] at h
    split at h <;> simp at h
  | upload bn d e mx =>
    simp only [checkFields] at h
    split at h
    · simp at h
    · split at h <;> simp at h
  | download bn d e =>
    simp only [checkFields] at h
    split at h
    · simp at h
    · split at h <;> simp at h

theorem fieldsOk_checkFields {m : Member} (h : fieldsOk m = true) :
    checkFields m = .ok () := by
  unfold fieldsOk at h
  cases hc : checkFields m with
  | ok u => cases u; rfl
  | error e => rw [hc] at h; cases h

theorem validateMembers_ok_names (ms : List Member) (seen out : List String)
    (h : validateMembers seen ms = .ok out) :
    out = (ms.filterMap dupName).reverse ++ seen := by
  induction ms generalizing seen with
  | nil =>
    simp only [validateMembers] at h
    injection h with h
    simp [h]
  | cons m rest ih =>
    simp only [validateMembers] at h
    cases hc : checkMember seen m with
    | error e => rw [hc] at h; cases h
    | ok seen1 =>
      rw [hc] at h
      unfold checkMember at hc
      cases hd : dupName m with
      | some n =>
        simp only [hd] at hc
        by_cases hmem : n ∈ seen
        · rw [if_pos hmem] at hc; cases hc
        · rw [if_neg hmem] at hc
          cases hf : checkFields m with
          | error e => rw [hf] at hc; cases hc
          | ok u =>
            rw [hf] at hc
            injection hc with hc
            subst hc
            rw [ih _ h]
            simp [List.filterMap_cons, hd]
      | none =>
        simp only [hd] at hc
        cases hf : checkFields m with
        | error e => rw [hf] at hc; cases hc
        | ok u =>
          rw [hf] at hc
          injection hc with hc
          subst hc
          rw [ih _ h]
          simp [List.filterMap_cons, hd]

theorem validateMembers_ok_nodup (ms : List Member) (seen out : List String)
    (hseen : seen.Nodup) (h : validateMembers seen ms = .ok out) : out.Nodup := by
  induction ms generalizing seen with
  | nil =>
    simp only [validateMembers] at h
    injection h with h
    rw [← h]
    exact hseen
  | cons m rest ih =>
    simp only [validateMembers] at h
    cases hc : checkMember seen m with
    | error e => rw [hc] at h; cases h
    | ok seen1 =>
      rw [hc] at h
      unfold checkMember at hc
      cases hd : dupName m with
      | some n =>
        simp only [hd] at hc
        by_cases hmem : n ∈ seen
        · rw [if_pos hmem] at hc; cases hc
        · rw [if_neg hmem] at hc
          cases hf : checkFields m with
          | error e => rw [hf] at hc; cases hc
          | ok u =>
            rw [hf] at hc
            injection hc with hc
            subst hc
            exact ih (n :: seen) (List.nodup_cons.mpr ⟨hmem, hseen⟩) h
      | none =>
        simp only [hd] at hc
        cases hf : checkFields m with
        | error e => rw [hf] at hc; cases hc
        | ok u =>
          rw [hf] at hc
          injection hc with hc
          subst hc
          exact ih seen hseen h

theorem validateMembers_nodup_no_dup_error (ms : List Member) (seen : List String)
    (h : (seen ++ ms.filterMap dupName).Nodup) (n : String) :
    validateMembers seen ms ≠ .error (.duplicateButtonName n) := by
  induction ms generalizing seen with
  | nil =>
    intro habs
    simp [validateMembers] at habs
  | cons m rest ih =>
    intro habs
    simp only [validateMembers] at habs
    cases hc : checkMember seen m with
    | error e =>
      rw [hc] at habs
      injection habs with habs
      subst habs
      unfold checkMember at hc
      cases hd : dupName m with
      | some k =>
        simp only [hd] at hc
        by_cases hmem : k ∈ seen
        · -- the duplicate error firing contradicts the assumed distinctness
          have hnod := h
          rw [List.filterMap_cons, hd] at hnod
          have hdisj := List.disjoint_of_nodup_append hnod
          exact hdisj hmem (List.mem_cons_self k _)
        · rw [if_neg hmem] at hc
          cases hf : checkFields m with
          | error e2 =>
            rw [hf] at hc
            injection hc with hc
            subst hc
            exact checkFields_ne_dup m n hf
          | ok u => rw [hf] at hc; cases hc
      | none =>
        simp only [hd] at hc
        cases hf : checkFields m with
        | error e2 =>
          rw [hf] at hc
          injection hc with hc
          subst hc
          exact checkFields_ne_dup m n hf
        | ok u => rw [hf] at hc; cases hc
    | ok seen1 =>
      rw [hc] at habs
      unfold checkMember at hc
      cases hd : dupName m with
      | some k =>
        simp only [hd] at hc
        by_cases hmem : k ∈ seen
        · rw [if_pos hmem] at hc; cases hc
        · rw [if_neg hmem] at hc
          cases hf : checkFields m with
          | error e => rw [hf] at hc; cases hc
          | ok u =>
            rw [hf] at hc
            injection hc with hc
            subst hc
            refine ih (k :: seen) ?_ habs
            have hperm : (seen ++ k :: rest.filterMap dupName).Perm
                ((k :: seen) ++ rest.filterMap dupName) := by
              simp [List.perm_middle]
            have := h
            rw [List.filterMap_cons, hd] at this
            exact hperm.nodup this
      | none =>
        simp only [hd] at hc
        cases hf : checkFields m with
        | error e => rw [hf] at hc; cases hc
        | ok u =>
          rw [hf] at hc
          injection hc with hc
          subst hc
          refine ih seen ?_ habs
          have := h
          rw [List.filterMap_cons, hd] at this
          exact this

theorem validateTabs_ok_names (ts : List Tab) (seen out : List String)
    (h : validateTabs seen ts = .ok out) :
    out = ((ts.map Tab.members).flatten.filterMap dupName).reverse ++ seen := by
  induction ts generalizing seen with
  | nil =>
    simp only [validateTabs] at h
    injection h with h
    simp [h]
  | cons t ts ih =>
    simp only [validateTabs] at h
    cases hm : validateMembers seen t.members with
    | error e => rw [hm] at h; cases h
    | ok seen1 =>
      rw [hm] at h
      rw [ih _ h, validateMembers_ok_names t.members seen seen1 hm]
      simp [List.filterMap_append, List.reverse_append, List.append_assoc]

theorem validateTabs_ok_nodup (ts : List Tab) (seen out : List String)
    (hseen : seen.Nodup) (h : validateTabs seen ts = .ok out) : out.Nodup := by
  induction ts generalizing seen with
  | nil =>
    simp only [validateTabs] at h
    injection h with h
    rw [← h]
    exact hseen
  | cons t ts ih =>
    simp only [validateTabs] at h
    cases hm : validateMembers seen t.members with
    | error e => rw [hm] at h; cases h
    | ok seen1 =>
      rw [hm] at h
      exact ih _ (validateMembers_ok_nodup t.members seen seen1 hseen hm) h

theorem validateTabs_nodup_no_dup_error (ts : List Tab) (seen : List String)
    (h : (seen ++ (ts.map Tab.members).flatten.filterMap dupName).Nodup) (n : String) :
    validateTabs seen ts ≠ .error (.duplicateButtonName n) := by
  induction ts generalizing seen with
  | nil =>
    intro habs
    simp [validateTabs] at habs
  | cons t ts ih =>
    intro habs
    simp only [validateTabs] at habs
    cases hm : validateMembers seen t.members with
    | error e =>
      rw [hm] at habs
      injection habs with habs
      subst habs
      refine validateMembers_nodup_no_dup_error t.members seen ?_ n hm
      have hsub : (seen ++ t.members.filterMap dupName).Sublist
          (seen ++ (t.members.filterMap dupName
            ++ (ts.map Tab.members).flatten.filterMap dupName)) :=
        (List.sublist_append_left _ _).append_left seen
      have h2 := h
      simp only [List.map_cons, List.flatten_cons, List.filterMap_append] at h2
      exact h2.sublist hsub
    | ok seen1 =>
      rw [hm] at habs
      have h1 := validateMembers_ok_names t.members seen seen1 hm
      refine ih seen1 ?_ habs
      rw [h1]
      have h2 := h
      simp only [List.map_cons, List.flatten_cons, List.filterMap_append] at h2
      rw [← List.append_assoc] at h2
      have hperm : ((seen ++ t.members.filterMap dupName)
            ++ (ts.map Tab.members).flatten.filterMap dupName).Perm
          (((t.members.filterMap dupName).reverse ++ seen)
            ++ (ts.map Tab.members).flatten.filterMap dupName) := by
        refine List.Perm.append_right _ ?_
        exact (List.perm_append_comm).trans ((List.reverse_perm _).symm.append_right seen)
      exact hperm.nodup h2

theorem validateMembers_fieldsOk_cases (ms : List Member) (seen : List String)
    (hall : ∀ m ∈ ms, fieldsOk m = true) :
    validateMembers seen ms = .ok ((ms.filterMap dupName).reverse ++ seen)
    ∨ ∃ n, validateMembers seen ms = .error (.duplicateButtonName n)
        ∧ 2 ≤ (seen ++ ms.filterMap dupName).count n := by
  induction ms generalizing seen with
  | nil =>
    left
    simp [validateMembers]
  | cons m rest ih =>
    have hm : checkFields m = .ok () := fieldsOk_checkFields (hall m (by simp))
    have hallr : ∀ x ∈ rest, fieldsOk x = true := fun x hx => hall x (by simp [hx])
    cases hd : dupName m with
    | some k =>
      by_cases hmem : k ∈ seen
      · right
        refine ⟨k, ?_, ?_⟩
        · simp only [validateMembers, checkMember, hd, if_pos hmem]
        · simp only [List.filterMap_cons, hd, List.count_append]
          have h1 : 0 < seen.count k := List.count_pos_iff.mpr hmem
          have h2 : 0 < (k :: rest.filterMap dupName).count k := by
            simp [List.count_cons_self]
          omega
      · have hstep : validateMembers seen (m :: rest) = validateMembers (k :: seen) rest := by
          simp only [validateMembers, checkMember, hd, if_neg hmem, hm]
        rcases ih (k :: seen) hallr with hok | ⟨n, herr, hcount⟩
        · left
          rw [hstep, hok]
          simp [List.filterMap_cons, hd]
        · right
          refine ⟨n, by rw [hstep]; exact herr, ?_⟩
          simp only [List.filterMap_cons, hd]
          have hperm : ((k :: seen) ++ rest.filterMap dupName).Perm
              (seen ++ k :: rest.filterMap dupName) := List.perm_middle.symm
          calc 2 ≤ ((k :: seen) ++ rest.filterMap dupName).count n := hcount
            _ = (seen ++ k :: rest.filterMap dupName).count n := hperm.count_eq n
    | none =>
      have hstep : validateMembers seen (m :: rest) = validateMembers seen rest := by
        simp only [validateMembers, checkMember, hd, hm]
      rcases ih seen hallr with hok | ⟨n, herr, hcount⟩
      · left
        rw [hstep, hok]
        simp [List.filterMap_cons, hd]
      · right
        exact ⟨n, by rw [hstep]; exact herr,
          by rw [List.filterMap_cons, hd]; exact hcount⟩

theorem validateTabs_fieldsOk_cases (ts : List Tab) (seen : List String)
    (hall : ∀ m ∈ (ts.map Tab.members).flatten, fieldsOk m = true) :
    validateTabs seen ts
        = .ok (((ts.map Tab.members).flatten.filterMap dupName).reverse ++ seen)
    ∨ ∃ n, validateTabs seen ts = .error (.duplicateButtonName n)
        ∧ 2 ≤ (seen ++ (ts.map Tab.members).flatten.filterMap dupName).count n := by
  induction ts generalizing seen with
  | nil =>
    left
    simp [validateTabs]
  | cons t ts ih =>
    have hallm : ∀ m ∈ t.members, fieldsOk m = true := by
      intro m hm
      exact hall m (by simp [hm])
    have hallr : ∀ m ∈ (ts.map Tab.members).flatten, fieldsOk m = true := by
      intro m hm
      exact hall m (by simp [hm])
    rcases validateMembers_fieldsOk_cases t.members seen hallm with hok | ⟨n, herr, hcount⟩
    · have hstep : validateTabs seen (t :: ts)
          = validateTabs ((t.members.filterMap dupName).reverse ++ seen) ts := by
        simp only [validateTabs, hok]
      rcases ih _ hallr with hok2 | ⟨n, herr2, hcount2⟩
      · left
        rw [hstep, hok2]
        simp [List.map_cons, List.flatten_cons, List.filterMap_append,
          List.reverse_append, List.append_assoc]
      · right
        refine ⟨n, by rw [hstep]; exact herr2, ?_⟩
        simp only [List.map_cons, List.flatten_cons, List.filterMap_append,
          List.count_append] at hcount2 ⊢
        rw [List.count_reverse] at hcount2
        omega
    · right
      refine ⟨n, ?_, ?_⟩
      · simp only [validateTabs, herr]
      · simp only [List.map_cons, List.flatten_cons, List.filterMap_append,
          List.count_append] at hcount ⊢
        omega

/-- **C3 (amended).** Duplicate detection as `validateConfig` actually
performs it: only Button/Upload/Download members with a truthy (non-empty)
`button_name` take part in the check. (i) If validation succeeds, the
participating names are pairwise distinct — so a configuration with a
duplicated truthy name always fails startup and the process never serves.
(ii) With pairwise-distinct truthy names, the duplicate check never fires.
(iii) When every member also passes its required-field checks, a duplicated
truthy name makes validation fail precisely with a duplicate error naming a
`button_name` that occurs at least twice. Members sharing an empty or
missing `button_name` are exempt (see the counterexample). -/
theorem validateConfig_duplicate_detection (cfg : Config) :
    (validateConfig cfg = .ok () → (budNames cfg).Nodup)
    ∧ ((budNames cfg).Nodup →
        ∀ n, validateConfig cfg ≠ .error (.duplicateButtonName n))
    ∧ ((∀ m ∈ flatMembers cfg, fieldsOk m = true) → ¬ (budNames cfg).Nodup →
        ∃ n, validateConfig cfg = .error (.duplicateButtonName n)
          ∧ 2 ≤ (budNames cfg).count n) := by
  refine ⟨?_, ?_, ?_⟩
  · intro h
    unfold validateConfig at h
    cases ht : validateTabs [] cfg.tabs with
    | error e => rw [ht] at h; cases h
    | ok out =>
      have hnodup := validateTabs_ok_nodup cfg.tabs [] out (by simp) ht
      rw [validateTabs_ok_names cfg.tabs [] out ht] at hnodup
      simp only [List.append_nil] at hnodup
      rw [show budNames cfg = (cfg.tabs.map Tab.members).flatten.filterMap dupName from rfl]
      exact List.nodup_reverse.mp hnodup
  · intro hnod n habs
    unfold validateConfig at habs
    cases ht : validateTabs [] cfg.tabs with
    | ok out => rw [ht] at habs; cases habs
    | error e =>
      rw [ht] at habs
      injection habs with habs
      subst habs
      refine validateTabs_nodup_no_dup_error cfg.tabs [] ?_ n ht
      exact hnod
  · intro hfields hdup
    rcases validateTabs_fieldsOk_cases cfg.tabs [] hfields with hok | ⟨n, herr, hcount⟩
    · exfalso
      apply hdup
      have hnodup := validateTabs_ok_nodup cfg.tabs [] _ (by simp) hok
      simp only [List.append_nil] at hnodup
      exact List.nodup_reverse.mp hnodup
    · refine ⟨n, ?_, hcount⟩
      unfold validateConfig
      rw [herr]

/-- Two Button members sharing the empty `button_name`, each otherwise
well-formed. -/
def cfgEmptyDup : Config := ⟨"localhost", 1883,
  [⟨"tab1", [.button (some "") (some "cmd/a"), .button (some "") (some "cmd/b")]⟩]⟩

/-- **C3 (counterexample).** Two Button members that share the same
`button_name` (the empty string) pass validation: the duplicate check skips
members whose `button_name` is falsy, so startup succeeds and the server
begins serving despite the shared name. -/
theorem duplicate_empty_name_passes :
    validateConfig cfgEmptyDup = .ok ()
    ∧ (flatMembers cfgEmptyDup).map Member.buttonName = [some "", some ""]
    ∧ (∀ m ∈ flatMembers cfgEmptyDup, m.isBUD = true) := by
  refine ⟨rfl, rfl, by decide⟩

/-- Two well-formed Button members in different tabs, both named "logs". -/
def cfgDupLogs : Config := ⟨"localhost", 1883,
  [⟨"t1", [.button (some "logs") (some "cmd/a")]⟩,
   ⟨"t2", [.button (some "logs") (some "cmd/b")]⟩]⟩

/-- Concrete instance of the duplicate-detection theorem: two Button
members named "logs" make validation fail with an error naming "logs". -/
theorem validateConfig_duplicate_detection_witness :
    (∀ m ∈ flatMembers cfgDupLogs, fieldsOk m = true)
    ∧ ¬ (budNames cfgDupLogs).Nodup
    ∧ ∃ n, validateConfig cfgDupLogs = .error (.duplicateButtonName n)
        ∧ 2 ≤ (budNames cfgDupLogs).count n :=
  ⟨by decide, by decide,
    (validateConfig_duplicate_detection cfgDupLogs).2.2 (by decide) (by decide)⟩

def Member.isSensor : Member → Bool
  | .sensor .. => true
  | _ => false

/-- JS values as the decoders deliver them and the formatter consumes them. -/
inductive JsVal where
  | num (n : Int)
  | str (s : String)
  | boolean (b : Bool)
  | obj (fields : List (String × JsVal))

/-- A formatted sensor reading `{value, unit, timestamp}`. -/
structure Reading where
  value : JsVal
  unit : String
  timestamp : Nat

/-- JS `topic.split('/')` as a list of strings. -/
def splitTopic (t : String) : List String :=
  (splitSlash t.data).map (fun l => ⟨l⟩)

/-- The cache key computed by `updateLatestSensorData`:
`topic.split('/')[1] || topic`. -/
def sensorKey (topic : String) : String :=
  match (splitTopic topic)[1]? with
  | some s => if s == "" then topic else s
  | none => topic

/-- The claim's comparison notion: the last `'/'`-separated segment of a
topic. -/
def lastPathSegment (t : String) : String :=
  ((splitTopic t).getLast?).getD t

def sensorTopicsMembers : List Member → List String
  | [] => []
  | m :: rest =>
    (match m with
     | .sensor t _ => if truthy t then [t.getD ""] else []
     | _ => []) ++ sensorTopicsMembers rest

def sensorTopicsTabs : List Tab → List String
  | [] => []
  | t :: ts => sensorTopicsMembers t.members ++ sensorTopicsTabs ts

/-- The `sensorTopics` array built once at startup: the topic of every
sensor member with a truthy topic, in traversal order. -/
def sensorTopics (cfg : Config) : List String := sensorTopicsTabs cfg.tabs

/-- `getUnitForTopic`: the first sensor member declaring exactly this topic
contributes `member.unit || ''`; with no match the unit is `''`. -/
def getUnitForTopic (cfg : Config) (topic : String) : String :=
  match findMemberTabs (fun m => m.isSensor && m.sensorTopic == some topic) cfg.tabs with
  | some m => m.sensorUnit.getD ""
  | none => ""

/-- The `for (const key in parsed)` scan for the first numeric property. -/
def firstNumeric : List (String × JsVal) → Option JsVal
  | [] => none
  | (_, .num n) :: _ => some (.num n)
  | _ :: rest => firstNumeric rest

/-- `formatSensorData(topic, parsed)` of the CommonJS server: the value is
the first numeric property of the decoded object (the whole decoded value
when none exists), the unit comes from the configuration lookup only, the
timestamp is the receive-time clock, passed explicitly. -/
def formatSensorData (cfg : Config) (topic : String) (parsed : JsVal) (now : Nat) :
    Reading :=
  let value :=
    match parsed with
    | .obj fields => (firstNumeric fields).getD parsed
    | _ => parsed
  { value := value, unit := getUnitForTopic cfg topic, timestamp := now }

/-- String field lookup in a decoded object. -/
def objStrField (key : String) : List (String × JsVal) → Option String
  | [] => none
  | (k, v) :: rest =>
    if k == key then
      match v with
      | .str s => some s
      | _ => none
    else objStrField key rest

/-- The unit a decoded payload itself embeds — the claimed second source of
the resolution order, for comparison with what the formatter does. -/
def payloadUnit : JsVal → Option String
  | .obj fields => objStrField "unit" fields
  | _ => none

/-- The standard base64 alphabet, as `Buffer.toString('base64')` uses. -/
def base64Alphabet : List Char :=
  "ABCDEFGHIJKLMNOPQRSTUVWXYZabcdefghijklmnopqrstuvwxyz0123456789+/".data

def base64Digit (n : Nat) : Char := base64Alphabet.getD n 'A'

/-- Standard base64 of a byte list, three bytes to four digits with `'='`
padding — the raw-passthrough encoding `message.toString('base64')`. -/
def base64Encode : List Nat → List Char
  | [] => []
  | [a] => [base64Digit (a / 4), base64Digit (a % 4 * 16), '=', '=']
  | [a, b] =>
    [base64Digit (a / 4), base64Digit (a % 4 * 16 + b / 16),
     base64Digit (b % 16 * 4), '=']
  | a :: b :: c :: rest =>
    base64Digit (a / 4) :: base64Digit (a % 4 * 16 + b / 16)
      :: base64Digit (b % 16 * 4 + c / 64) :: base64Digit (c % 64)
      :: base64Encode rest

def base64String (bytes : List Nat) : String := ⟨base64Encode bytes⟩

/-- The four schema decoders `sensor_pb` provides. Each either returns the
decoded object or throws with an error text; they are external protobuf
primitives, so they enter the model as an explicit environment. -/
structure DecoderEnv where
  temperature : List Nat → Except String JsVal
  compass : List Nat → Except String JsVal
  gps : List Nat → Except String JsVal
  status : List Nat → Except String JsVal

/-- The `topicDecoderMap` built at startup: the four known topics map to
their schema decoder, every other configured topic to `null`
(raw passthrough). -/
def topicDecoder (env : DecoderEnv) (topic : String) :
    Option (List Nat → Except String JsVal) :=
  if topic == "sensor/temperature" then some env.temperature
  else if topic == "sensor/compass" then some env.compass
  else if topic == "sensor/gps" then some env.gps
  else if topic == "sensor/status" then some env.status
  else none

/-- `latestSensorData[key] = formatted`: replace in place or append,
preserving insertion order as a JS object does. -/
def cacheSet (cache : List (String × Reading)) (k : String) (v : Reading) :
    List (String × Reading) :=
  match cache with
  | [] => [(k, v)]
  | (k1, v1) :: rest =>
    if k1 == k then (k, v) :: rest else (k1, v1) :: cacheSet rest k v

def cacheGet (cache : List (String × Reading)) (k : String) : Option Reading :=
  match cache with
  | [] => none
  | (k1, v1) :: rest => if k1 == k then some v1 else cacheGet rest k

theorem cacheGet_cacheSet (cache : List (String × Reading)) (k : String) (v : Reading) :
    cacheGet (cacheSet cache k v) k = some v := by
  induction cache with
  | nil => simp [cacheSet, cacheGet]
  | cons p rest ih =>
    obtain ⟨k1, v1⟩ := p
    by_cases h : (k1 == k) = true
    · simp [cacheSet, cacheGet, h]
    · simp [cacheSet, cacheGet, h, ih]

/-- One `sensor_update` event pushed to every connected client; its
`sensor` field is `topic.split('/')[1]` without fallback. -/
structure BroadcastMsg where
  type : String
  sensor : Option String
  data : Reading

/-- The `mqttClient.on('message')` handler: on a registered topic, decode —
with the raw-passthrough fallback of the surrounding `try`/`catch` turning
any decoder throw into the object carrying the base64 bytes and the error
text — then format, store in the cache and broadcast; unregistered topics
are ignored. The handler is total: no decode failure can terminate the
subscription loop. -/
def handleMessage (cfg : Config) (env : DecoderEnv) (cache : List (String × Reading))
    (topic : String) (message : List Nat) (now : Nat) :
    List (String × Reading) × List BroadcastMsg :=
  if topic ∈ sensorTopics cfg then
    let parsed : JsVal :=
      match topicDecoder env topic with
      | some dec =>
        match dec message with
        | .ok v => v
        | .error e => .obj [("raw", .str (base64String message)), ("error", .str e)]
      | none => .obj [("raw", .str (base64String message))]
    let formatted := formatSensorData cfg topic parsed now
    (cacheSet cache (sensorKey topic) formatted,
      [⟨"sensor_update", (splitTopic topic)[1]?, formatted⟩])
  else (cache, [])

/-- **C5.** When the decoder of a registered topic throws, the message is
not discarded: the stored reading's value is exactly the raw representation
carrying the original bytes base64-encoded plus the decoder's error text,
it lands in the sensor cache under the topic's key, and the same reading is
broadcast to the clients; the handler returns normally, so the subscription
loop survives every decode failure. -/
theorem decode_failure_not_dropped (cfg : Config) (env : DecoderEnv)
    (cache : List (String × Reading)) (topic : String) (message : List Nat)
    (now : Nat) (dec : List Nat → Except String JsVal) (e : String)
    (htop : topic ∈ sensorTopics cfg)
    (hdec : topicDecoder env topic = some dec)
    (herr : dec message = .error e) :
    cacheGet (handleMessage cfg env cache topic message now).1 (sensorKey topic)
        = some (formatSensorData cfg topic
            (.obj [("raw", .str (base64String message)), ("error", .str e)]) now)
    ∧ (formatSensorData cfg topic
          (.obj [("raw", .str (base64String message)), ("error", .str e)]) now).value
        = .obj [("raw", .str (base64String message)), ("error", .str e)]
    ∧ (handleMessage cfg env cache topic message now).2
        = [⟨"sensor_update", (splitTopic topic)[1]?,
            formatSensorData cfg topic
              (.obj [("raw", .str (base64String message)), ("error", .str e)]) now⟩] := by
  unfold handleMessage
  simp only [if_pos htop, hdec, herr]
  refine ⟨cacheGet_cacheSet _ _ _, ?_, ?_⟩ <;> trivial

def cfgTemp : Config := ⟨"localhost", 1883,
  [⟨"main", [.sensor (some "sensor/temperature") (some "degC")]⟩]⟩

def envFail : DecoderEnv :=
  ⟨fun _ => .error "decode boom", fun _ => .ok (.obj []),
   fun _ => .ok (.obj []), fun _ => .ok (.obj [])⟩

/-- Concrete instance of the decode-failure theorem: bytes `00 01 02`
(base64 `AAEC`) on `sensor/temperature` with a throwing decoder. -/
theorem decode_failure_not_dropped_witness :
    ("sensor/temperature" ∈ sensorTopics cfgTemp)
    ∧ topicDecoder envFail "sensor/temperature" = some envFail.temperature
    ∧ envFail.temperature [0, 1, 2] = .error "decode boom"
    ∧ base64String [0, 1, 2] = "AAEC"
    ∧ cacheGet (handleMessage cfgTemp envFail [] "sensor/temperature" [0, 1, 2] 5).1
        (sensorKey "sensor/temperature")
      = some (formatSensorData cfgTemp "sensor/temperature"
          (.obj [("raw", .str (base64String [0, 1, 2])), ("error", .str "decode boom")]) 5) :=
  ⟨by decide, rfl, rfl, by decide,
    (decode_failure_not_dropped cfgTemp envFail [] "sensor/temperature" [0, 1, 2] 5
      envFail.temperature "decode boom" (by decide) rfl rfl).1⟩

theorem splitSlash_no_slash (l : List Char) (h : ('/' : Char) ∉ l) :
    splitSlash l = [l] := by
  induction l with
  | nil => rfl
  | cons c rest ih =>
    have hc : ¬ c = '/' := by
      intro hc
      exact h (by simp [hc])
    have hr : ('/' : Char) ∉ rest := fun hr => h (List.mem_cons_of_mem _ hr)
    simp only [splitSlash, if_neg hc, ih hr]

/-- **C7 (counterexample).** For the three-segment topic `sensor/gps/fix`
the cache key is the second segment `gps`, not the last segment `fix`. -/
theorem sensor_key_not_last_segment :
    sensorKey "sensor/gps/fix" = "gps"
    ∧ lastPathSegment "sensor/gps/fix" = "fix"
    ∧ ("gps" : String) ≠ "fix" :=
  ⟨rfl, rfl, by decide⟩

/-- **C7 (amended).** The cache key is the topic's second `'/'`-separated
segment when that segment exists and is non-empty, and the whole topic
otherwise. For two-segment topics `a/b` — the shape of every topic this
server knows a decoder for, e.g. `sensor/temperature` — the second segment
is the last one, so the key is `b` both in the cache and in the
`sensor_update` broadcast events. -/
theorem sensor_key_two_segment_topics (a b : String)
    (ha : ('/' : Char) ∉ a.data) (hb : ('/' : Char) ∉ b.data) (hb2 : ¬ b = "") :
    sensorKey (a ++ "/" ++ b) = b
    ∧ (splitTopic (a ++ "/" ++ b))[1]? = some b := by
  have hdata : (a ++ "/" ++ b).data = a.data ++ '/' :: b.data := by
    simp [String.data_append]
  have hsplit : splitTopic (a ++ "/" ++ b) = [a, b] := by
    unfold splitTopic
    rw [hdata, splitSlash_append, splitSlash_no_slash a.data ha,
      splitSlash_no_slash b.data hb]
    rfl
  constructor
  · unfold sensorKey
    rw [hsplit]
    have hb3 : (b == "") = false := by simpa using hb2
    simp [hb3]
  · rw [hsplit]
    rfl

/-- Concrete instance of the two-segment key theorem at the shipped
temperature topic. -/
theorem sensor_key_two_segment_topics_witness :
    (('/' : Char) ∉ "sensor".data)
    ∧ (('/' : Char) ∉ "temperature".data)
    ∧ ¬ ("temperature" : String) = ""
    ∧ sensorKey ("sensor" ++ "/" ++ "temperature") = "temperature" :=
  ⟨by decide, by decide, by decide,
    (sensor_key_two_segment_topics "sensor" "temperature"
      (by decide) (by decide) (by decide)).1⟩

/-- A temperature sensor member with no configured unit. -/
def cfgTempNoUnit : Config := ⟨"localhost", 1883,
  [⟨"main", [.sensor (some "sensor/temperature") none]⟩]⟩

/-- A decoded payload embedding both a numeric value and a unit. -/
def payloadWithUnit : JsVal := .obj [("temperature", .num 21), ("unit", .str "K")]

/-- **C8 (counterexample).** A decoded payload embeds `unit: "K"` while the
sensor member declares no unit; the claimed order would resolve the unit to
`"K"`, but the formatter yields `""` — the payload-embedded unit is never
consulted. -/
theorem unit_resolution_counterexample :
    (formatSensorData cfgTempNoUnit "sensor/temperature" payloadWithUnit 0).unit = ""
    ∧ payloadUnit payloadWithUnit = some "K"
    ∧ ("" : String) ≠ "K" :=
  ⟨rfl, rfl, by decide⟩

/-- **C8 (amended).** The unit of every formatted reading is exactly the
configuration lookup: the first sensor member declaring the topic
contributes its unit when present and `""` otherwise, and with no matching
member the unit is `""`. The unit is independent of the decoded payload —
no payload-embedded unit and no kind-specific default is ever consulted. -/
theorem unit_from_config_only (cfg : Config) (topic : String)
    (p q : JsVal) (n1 n2 : Nat) :
    (formatSensorData cfg topic p n1).unit = (formatSensorData cfg topic q n2).unit
    ∧ (formatSensorData cfg topic p n1).unit =
        (match (flatMembers cfg).find?
            (fun m => m.isSensor && m.sensorTopic == some topic) with
         | some m => m.sensorUnit.getD ""
         | none => "") := by
  constructor
  · rfl
  · show getUnitForTopic cfg topic = _
    unfold getUnitForTopic
    rw [findMemberTabs_eq_find?]
    rfl

/-- The broker-connection lifecycle state: connection flag plus the topics
currently subscribed in this (clean) session. -/
structure BusState where
  connected : Bool
  subs : List String

inductive BusEvent where
  | connect
  | disconnect
  | message (topic : String) (payload : List Nat)

/-- One lifecycle transition. On `connect` — initial connect or any later
reconnect — the `on('connect')` handler issues one `subscribe` call per
entry of the startup-derived `sensorTopics` list and nothing else, so the
fresh session's subscription set becomes exactly that list. A disconnect
drops the session's subscriptions; inbound messages never touch them. -/
def busStep (cfg : Config) (st : BusState) : BusEvent → BusState
  | .connect => ⟨true, sensorTopics cfg⟩
  | .disconnect => ⟨false, []⟩
  | .message _ _ => st

def busRun (cfg : Config) (st : BusState) (evs : List BusEvent) : BusState :=
  evs.foldl (busStep cfg) st

/-- **C6.** After every successful connect or reconnect — whatever trace of
connections, losses and messages preceded it — the subscribed set is
exactly the sensor-topic list derived once from the configuration (no
wildcard entry is ever added, no topic missing, none extra), message events
never change the subscription set, and re-subscription is
history-independent. -/
theorem subscriptions_exact (cfg : Config) (st : BusState) (evs : List BusEvent) :
    (busRun cfg st (evs ++ [.connect])).subs = sensorTopics cfg
    ∧ (∀ t p, (busRun cfg st (evs ++ [.message t p])).subs = (busRun cfg st evs).subs)
    ∧ (busRun cfg st (evs ++ [.connect])).subs
        = (busRun cfg ⟨false, []⟩ [.connect]).subs := by
  refine ⟨?_, ?_, ?_⟩ <;> simp [busRun, List.foldl_append, busStep]

/-- Drops trailing occurrences of a character. -/
def dropTrailing (c : Char) (l : List Char) : List Char :=
  (l.reverse.dropWhile (fun x => x == c)).reverse

/-- The last path component (after the last `'/'`) of a character list with
trailing slashes already removed. -/
def lastComponent (l : List Char) : List Char :=
  (l.reverse.takeWhile (fun x => x != '/')).reverse

/-- Node `path.extname`: on the trailing-slash-trimmed basename, the suffix
from the last dot on — empty when there is no dot, when the only dot is the
leading character of the basename, or when the basename is exactly `".."`.
This includes the leading dot: `extname "a.txt" = ".txt"`. -/
def extname (p : String) : String :=
  let b := lastComponent (dropTrailing '/' p.data)
  let afterDot := b.reverse.takeWhile (fun c => c != '.')
  if afterDot.length = b.length then ""
  else if b.length - afterDot.length - 1 = 0 then ""
  else if b = ['.', '.'] then ""
  else ⟨'.' :: afterDot.reverse⟩

/-- `path.isAbsolute` on POSIX. -/
def isAbsolutePath (s : String) : Bool :=
  match s.data with
  | '/' :: _ => true
  | _ => false

/-- Node `path.join(dir, name)` for an absolute `dir`: concatenate with a
separator and normalize — `".."` segments in `name` climb out of `dir`. -/
def pathJoinAbs (dir name : String) : String :=
  ⟨segsToPath (normSegs (dir.data ++ '/' :: name.data))⟩

/-- `resolveDir(baseDir, dir)` from the source: an absolute `dir` wins,
otherwise it is joined under `baseDir` (the server passes `__dirname`,
which is absolute). -/
def resolveDir (baseDir dir : String) : String :=
  if isAbsolutePath dir then dir else pathJoinAbs baseDir dir

/-- A completed write of a path name into the file-system state (a list of
existing absolute path names): an existing file is overwritten in place, so
the name set gains at most the new name. -/
def fsWrite (fs : List String) (p : String) : List String :=
  if p ∈ fs then fs else p :: fs

/-- `fs.unlinkSync` / `fs.unlink`: the name is gone afterwards. -/
def fsErase (fs : List String) (p : String) : List String :=
  fs.filter (fun q => q != p)

/-- `path.dirname` of a normalized absolute path. -/
def pathDirname (p : String) : String :=
  ⟨segsToPath ((normSegs p.data).dropLast)⟩

/-- The file entries a listing of `dir` shows: the existing names whose
normalized dirname is `dir`. -/
def filesInDir (dir : String) (fs : List String) : List String :=
  fs.filter (fun p => pathDirname p == dir)

theorem not_mem_fsErase (fs : List String) (p : String) : p ∉ fsErase fs p := by
  unfold fsErase
  intro h
  have := List.of_mem_filter h
  simp at this

theorem fsErase_fsWrite_fresh (fs : List String) (p : String) (h : p ∉ fs) :
    fsErase (fsWrite fs p) p = fs := by
  unfold fsWrite fsErase
  rw [if_neg h, List.filter_cons]
  have hself : (p != p) = false := by simp
  rw [hself]
  simp only [Bool.false_eq_true, if_false]
  apply List.filter_eq_self.mpr
  intro a ha
  simp only [bne_iff_ne, ne_eq]
  intro hap
  subst hap
  exact h ha

structure UploadFile where
  originalname : String
  size : Nat
  deriving DecidableEq

structure UpReq where
  button_name : Option String
  file : Option UploadFile
  deriving DecidableEq

structure UpResp where
  filename : String
  success : Bool
  error : String
  deriving DecidableEq

/-- The size check of the upload handler:
`uploadCfg.max_file_size && req.file.size > uploadCfg.max_file_size`
(a declared limit of `0` is falsy and disables the check). -/
def sizeViolated (m : Member) (f : UploadFile) : Bool :=
  match m.maxFileSize with
  | some mx => !(mx == 0) && decide (mx < f.size)
  | none => false

/-- The tail of the upload handler after the extension check: the size
check — deleting the staged file on violation — then the rename of the
staged file into the resolved target directory (a no-op move when staging
directory and target coincide). -/
def uploadFinish (f : UploadFile) (m : Member) (dirname uploadDirDefault : String)
    (fs1 : List String) : List String × UpResp :=
  let tempPath := pathJoinAbs uploadDirDefault f.originalname
  if sizeViolated m f then
    (fsErase fs1 tempPath, ⟨"", false, "File size exceeds limit"⟩)
  else
    let uploadDir := resolveDir dirname (m.uploadDirectory.getD "")
    let destPath := pathJoinAbs uploadDir f.originalname
    if tempPath == destPath then (fs1, ⟨f.originalname, true, ""⟩)
    else (fsWrite (fsErase fs1 tempPath) destPath, ⟨f.originalname, true, ""⟩)

/-- The `/api/upload` request as a whole. `multer.diskStorage` first stages
the incoming file (if any) at `UPLOAD_DIR/<originalname>` — overwriting any
existing file of that name — then the handler resolves the upload policy,
checks the extension allow-list (exact match, leading dot included), then
the size limit, unlinking the staged file before answering
`{success: false}` on either violation, and otherwise renames the staged
file to the target. Thrown errors are caught and answered as
`{success: false}` responses. -/
def uploadRequest (cfg : Config) (dirname uploadDirDefault : String)
    (req : UpReq) (fs : List String) : List String × UpResp :=
  match req.file with
  | none =>
    (fs,
      match resolveUpload cfg req.button_name with
      | none => ⟨"", false, "No upload config found"⟩
      | some _ => ⟨"", false, "No file uploaded"⟩)
  | some f =>
    let tempPath := pathJoinAbs uploadDirDefault f.originalname
    let fs1 := fsWrite fs tempPath
    match resolveUpload cfg req.button_name with
    | none => (fs1, ⟨"", false, "No upload config found"⟩)
    | some m =>
      match m.allowedExtensions with
      | some exts =>
        if extname f.originalname ∉ exts then
          (fsErase fs1 tempPath, ⟨"", false, "File type not allowed"⟩)
        else uploadFinish f m dirname uploadDirDefault fs1
      | none => uploadFinish f m dirname uploadDirDefault fs1

/-- **C2 (amended).** On an upload whose policy resolves and whose
allow-list is present, enforcement is in order: a disallowed extension
rejects with "File type not allowed" regardless of size, and an allowed
extension over a truthy declared limit rejects with "File size exceeds
limit". On either violation the staged file is deleted before the response,
the response is `{success: false}`, and — provided the uploaded name was
not already staged, i.e. no overwrite happened — the file-system state is
exactly what it was before the request, so the target directory's file set
is unchanged and the rejected upload never persists. The overwrite proviso
is necessary: see the counterexample. -/
theorem upload_rejection_enforcement (cfg : Config) (dirname uploadDirDefault : String)
    (req : UpReq) (fs : List String) (f : UploadFile) (m : Member) (exts : List String)
    (hf : req.file = some f)
    (hm : resolveUpload cfg req.button_name = some m)
    (hext : m.allowedExtensions = some exts)
    (hviol : extname f.originalname ∉ exts
      ∨ (extname f.originalname ∈ exts ∧ sizeViolated m f = true))
    (hfresh : pathJoinAbs uploadDirDefault f.originalname ∉ fs) :
    (uploadRequest cfg dirname uploadDirDefault req fs).2.success = false
    ∧ (uploadRequest cfg dirname uploadDirDefault req fs).2.error
        = (if extname f.originalname ∈ exts then "File size exceeds limit"
           else "File type not allowed")
    ∧ pathJoinAbs uploadDirDefault f.originalname
        ∉ (uploadRequest cfg dirname uploadDirDefault req fs).1
    ∧ (uploadRequest cfg dirname uploadDirDefault req fs).1 = fs := by
  unfold uploadRequest
  simp only [hf, hm, hext]
  rcases hviol with hv | ⟨hin, hsize⟩
  · rw [if_pos hv]
    have hnin : extname f.originalname ∈ exts ↔ False := by simp [hv]
    refine ⟨rfl, ?_, ?_, ?_⟩
    · simp [hv]
    · exact fun hmem => not_mem_fsErase _ _ hmem
    · exact fsErase_fsWrite_fresh fs _ hfresh
  · rw [if_neg (by simp [hin])]
    unfold uploadFinish
    rw [if_pos hsize]
    refine ⟨rfl, ?_, ?_, ?_⟩
    · simp [hin]
    · exact fun hmem => not_mem_fsErase _ _ hmem
    · exact fsErase_fsWrite_fresh fs _ hfresh

/-- A single upload policy with allow-list `[".txt", ".csv"]`, staging and
target directory both resolving to `/app/uploads`. -/
def cfgUploadTxt : Config := ⟨"localhost", 1883,
  [⟨"files", [.upload (some "files") (some "uploads") (some [".txt", ".csv"]) none]⟩]⟩

/-- An upload of `virus.exe` with no explicit policy identifier. -/
def reqExe : UpReq := ⟨none, some ⟨"virus.exe", 10⟩⟩

/-- Concrete instance of the rejection theorem: `virus.exe` against
`[".txt", ".csv"]` on an empty directory is rejected, deleted, and the
file-system state is unchanged. -/
theorem upload_rejection_enforcement_witness :
    reqExe.file = some ⟨"virus.exe", 10⟩
    ∧ resolveUpload cfgUploadTxt reqExe.button_name
        = some (.upload (some "files") (some "uploads") (some [".txt", ".csv"]) none)
    ∧ extname "virus.exe" = ".exe"
    ∧ (extname "virus.exe" ∉ [".txt", ".csv"]
        ∨ (extname "virus.exe" ∈ [".txt", ".csv"]
            ∧ sizeViolated (.upload (some "files") (some "uploads")
                (some [".txt", ".csv"]) none) ⟨"virus.exe", 10⟩ = true))
    ∧ (uploadRequest cfgUploadTxt "/app" "/app/uploads" reqExe []).2.success = false
    ∧ (uploadRequest cfgUploadTxt "/app" "/app/uploads" reqExe []).1 = [] :=
  ⟨rfl, rfl, rfl, Or.inl (by decide),
    (upload_rejection_enforcement cfgUploadTxt "/app" "/app/uploads" reqExe []
      ⟨"virus.exe", 10⟩ _ [".txt", ".csv"] rfl rfl rfl (Or.inl (by decide))
      (by decide)).1,
    (upload_rejection_enforcement cfgUploadTxt "/app" "/app/uploads" reqExe []
      ⟨"virus.exe", 10⟩ _ [".txt", ".csv"] rfl rfl rfl (Or.inl (by decide))
      (by decide)).2.2.2⟩

/-- A staging/target directory that already holds a file named
`virus.exe`. -/
def fsPre : List String := ["/app/uploads/virus.exe"]

/-- **C2 (counterexample).** multer stages uploads under their original
name and overwrites: when `virus.exe` already exists in the staging
directory — which here is also the resolved target directory — the
rejection's cleanup unlinks the staged name and thereby deletes the
pre-existing file. The response is `{success: false}` as claimed, but the
target directory's file set is not unchanged. -/
theorem upload_rejection_overwrite_counterexample :
    (uploadRequest cfgUploadTxt "/app" "/app/uploads" reqExe fsPre).2.success = false
    ∧ (uploadRequest cfgUploadTxt "/app" "/app/uploads" reqExe fsPre).2.error
        = "File type not allowed"
    ∧ resolveDir "/app" "uploads" = "/app/uploads"
    ∧ filesInDir "/app/uploads"
          ((uploadRequest cfgUploadTxt "/app" "/app/uploads" reqExe fsPre).1)
        ≠ filesInDir "/app/uploads" fsPre := by
  refine ⟨rfl, rfl, rfl, by decide⟩

inductive DeleteResult where
  | notFound
  | deleted
  deriving DecidableEq

/-- The `/api/delete/:filename` handler: the target is the raw
`path.join(UPLOAD_DIR, req.params.filename)` — no sanitization of the
parameter and no containment check; 404 exactly when the joined path does
not exist, unlink of exactly that path otherwise. -/
def deleteRequest (uploadDir filename : String) (fs : List String) :
    DeleteResult × List String :=
  let filePath := pathJoinAbs uploadDir filename
  if filePath ∈ fs then (.deleted, fsErase fs filePath)
  else (.notFound, fs)

/-- **C10.** The delete endpoint applies no normalization of its own and no
containment check: for every filename the target is the direct join with
the default upload directory, the 404 branch is taken exactly when that
joined path does not exist, and otherwise exactly that path is unlinked.
Concretely, the parent-traversal filename `../../etc/passwd` resolves to
`/etc/passwd`, outside the upload root `/app/uploads` (its canonical
segments do not extend the root's), and when a file exists there the
request deletes it. -/
theorem delete_no_containment :
    (∀ (uploadDir filename : String) (fs : List String),
      ((deleteRequest uploadDir filename fs).1 = .notFound
        ↔ pathJoinAbs uploadDir filename ∉ fs)
      ∧ (deleteRequest uploadDir filename fs).2
          = (if pathJoinAbs uploadDir filename ∈ fs
             then fsErase fs (pathJoinAbs uploadDir filename) else fs))
    ∧ pathJoinAbs "/app/uploads" "../../etc/passwd" = "/etc/passwd"
    ∧ ((normSegs "/app/uploads".data).isPrefixOf (normSegs "/etc/passwd".data)) = false
    ∧ (deleteRequest "/app/uploads" "../../etc/passwd" ["/etc/passwd"]).1 = .deleted
    ∧ (deleteRequest "/app/uploads" "../../etc/passwd" ["/etc/passwd"]).2 = [] := by
  refine ⟨?_, by decide, by decide, by decide, by decide⟩
  intro d f fs
  unfold deleteRequest
  by_cases h : pathJoinAbs d f ∈ fs
  · simp [h]
  · simp [h]

structure ActionReq where
  action : Option String
  value : Option String
  deriving DecidableEq

structure ActionResp where
  ack : String
  success : Bool
  error : String
  deriving DecidableEq

/-- The broker client's behavior during this request, as the handler can
observe it: each call either returns or throws, and a thrown message is
what the surrounding `catch` reports. -/
structure MqttOutcomes where
  reconnect : Except String Unit
  publish : Except String Unit

structure ActionOutcome where
  resp : ActionResp
  reconnectAttempts : Nat
  published : List (String × String)

/-- The publish step and success response of `/api/action`. -/
def actionPublish (oc : MqttOutcomes) (topic payload : String) (attempts : Nat) :
    ActionOutcome :=
  match oc.publish with
  | .error e => ⟨⟨"", false, e⟩, attempts, []⟩
  | .ok _ => ⟨⟨"Action sent", true, ""⟩, attempts, [(topic, payload)]⟩

/-- The `/api/action` handler: resolve the action identifier to a Button
member via the nested config loop, then — only when the bus connection is
down — attempt exactly one `reconnect()` before `publish()`ing the value
(or the empty payload). Every throw is caught and answered as a
per-request `{ack: '', success: false, error}` response; nothing is fatal. -/
def actionHandler (cfg : Config) (connected : Bool) (oc : MqttOutcomes)
    (req : ActionReq) : ActionOutcome :=
  match truthyOpt req.action with
  | none => ⟨⟨"", false, "No action provided in request"⟩, 0, []⟩
  | some a =>
    match findMemberTabs (fun m => m.isButtonType && m.buttonName == some a) cfg.tabs with
    | none => ⟨⟨"", false, "Action not found in config"⟩, 0, []⟩
    | some m =>
      match truthyOpt m.publishTopic with
      | none => ⟨⟨"", false, "No publish_topic found for action"⟩, 0, []⟩
      | some t =>
        if connected then actionPublish oc t (req.value.getD "") 0
        else
          match oc.reconnect with
          | .error e => ⟨⟨"", false, e⟩, 1, []⟩
          | .ok _ => actionPublish oc t (req.value.getD "") 1

/-- **C9.** For every action request that resolves to a Button member while
the bus connection is down, exactly one reconnect is attempted before any
publish; a throwing reconnect rejects the action with a per-request
`{success: false}` response carrying its message and nothing published —
never a fatal error (the handler always answers) and never a success
response: success is answered only when both the reconnect and the publish
went through, and then exactly one message is published to the button's
topic. -/
theorem action_single_reconnect (cfg : Config) (oc : MqttOutcomes) (req : ActionReq)
    (a : String) (m : Member) (t : String)
    (ha : truthyOpt req.action = some a)
    (hm : findMemberTabs (fun x => x.isButtonType && x.buttonName == some a) cfg.tabs
        = some m)
    (ht : truthyOpt m.publishTopic = some t) :
    (actionHandler cfg false oc req).reconnectAttempts = 1
    ∧ (∀ e, oc.reconnect = .error e →
        (actionHandler cfg false oc req).resp.success = false
        ∧ (actionHandler cfg false oc req).published = []
        ∧ (actionHandler cfg false oc req).resp.error = e)
    ∧ ((actionHandler cfg false oc req).resp.success = true →
        oc.reconnect = .ok () ∧ oc.publish = .ok ()
        ∧ (actionHandler cfg false oc req).published = [(t, req.value.getD "")]) := by
  cases hr : oc.reconnect with
  | error e2 =>
    refine ⟨?_, ?_, ?_⟩
    · simp [actionHandler, ha, hm, ht, hr]
    · intro e he
      injection he with he
      subst he
      refine ⟨?_, ?_, ?_⟩ <;> simp [actionHandler, ha, hm, ht, hr]
    · intro hsucc
      exfalso
      simp [actionHandler, ha, hm, ht, hr] at hsucc
  | ok u =>
    cases u
    refine ⟨?_, ?_, ?_⟩
    · cases hp : oc.publish <;>
        simp [actionHandler, actionPublish, ha, hm, ht, hr, hp]
    · intro e he
      simp at he
    · intro hsucc
      cases hp : oc.publish with
      | error e2 =>
        exfalso
        simp [actionHandler, actionPublish, ha, hm, ht, hr, hp] at hsucc
      | ok u2 =>
        cases u2
        refine ⟨rfl, rfl, ?_⟩
        simp [actionHandler, actionPublish, ha, hm, ht, hr, hp]

/-- A single restart button. -/
def cfgButton : Config := ⟨"localhost", 1883,
  [⟨"main", [.button (some "restart") (some "cmd/restart")]⟩]⟩

def reqRestart : ActionReq := ⟨some "restart", some "now"⟩

/-- A broker whose reconnect fails for this request. -/
def ocFailReconnect : MqttOutcomes := ⟨.error "Connection refused", .ok ()⟩

/-- Concrete instance of the action-reconnect theorem: disconnected bus,
failing reconnect — one attempt, rejected action, nothing published. -/
theorem action_single_reconnect_witness :
    truthyOpt reqRestart.action = some "restart"
    ∧ findMemberTabs (fun x => x.isButtonType && x.buttonName == some "restart")
        cfgButton.tabs = some (.button (some "restart") (some "cmd/restart"))
    ∧ truthyOpt (Member.publishTopic (.button (some "restart") (some "cmd/restart")))
        = some "cmd/restart"
    ∧ (actionHandler cfgButton false ocFailReconnect reqRestart).reconnectAttempts = 1
    ∧ (actionHandler cfgButton false ocFailReconnect reqRestart).resp.success = false :=
  ⟨rfl, rfl, rfl,
    (action_single_reconnect cfgButton ocFailReconnect reqRestart "restart"
      (.button (some "restart") (some "cmd/restart")) "cmd/restart" rfl rfl rfl).1,
    ((action_single_reconnect cfgButton ocFailReconnect reqRestart "restart"
      (.button (some "restart") (some "cmd/restart")) "cmd/restart" rfl rfl rfl).2.1
      "Connection refused" rfl).1⟩

end UpServer
